import Mathlib

/-!
Verification of the MagicPlugin card-fetching pipeline.

The Python sources (`fetch_set.py`, `download_images.py`) are embedded
shallowly: strings become `List Char`, dictionaries become structures with
`Option` fields, raised exceptions become `Option.none` results, and the
filesystem / HTTP effects of the image downloader become explicit state
passing (a list of path/content pairs plus a list of issued request URLs).
-/

namespace MagicPlugin

/-! ### Basic character helpers -/

/-- Python `str.isspace` / `\s`, restricted to the ASCII whitespace that the
scripts actually encounter. -/
def isPySpace (c : Char) : Bool :=
  c = ' ' || c = '\t' || c = '\n' || c = '\r' || c = '\x0b' || c = '\x0c'

/-- Value of a run of decimal digits, as computed by Python `int(...)`. -/
def natOfDigits (l : List Char) : Nat :=
  l.foldl (fun a c => a * 10 + (c.toNat - 48)) 0

/-! ### `convert_mana_cost` (fetch_set.py lines 104-123)

The Python loop walks an index `i` over the cost string.  On `{` it locates
the next `}` via `str.index` (raising `ValueError` when absent), uppercases
the whole slice `s[i:end+1]` and appends it to the result; on any other
character it merely advances `i` without appending.  We embed it as a
two-state scanner: `inTok = false` outside a token, `true` inside; `none`
models the `ValueError` raised on an unmatched `{`. -/

def cmcGo : Bool → List Char → Option (List Char)
  | false, [] => some []
  | true, [] => none
  | false, c :: r =>
    if c = '{' then (cmcGo true r).map (fun t => '{' :: t)
    else cmcGo false r
  | true, c :: r =>
    if c = '}' then (cmcGo false r).map (fun t => '}' :: t)
    else (cmcGo true r).map (fun t => c.toUpper :: t)

/-- `convert_mana_cost`: `none` models the `ValueError` raised by
`cost_string.index("}", i)` when a `{` is never closed. -/
def convert_mana_cost (s : List Char) : Option (List Char) :=
  cmcGo false s

/-! ### Color ordering (fetch_set.py lines 126-149)

`get_color_string` and `get_color_id` have identical bodies: sort the list
of one-letter color strings by the `{"W":0,...}` lookup (default 5) with
Python's stable sort, then concatenate.  We use `List.insertionSort`, which
is stable, as the embedding of Python's stable `sorted`. -/

/-- `order.get(x, 5)` from the Python source. -/
def colorOrd (s : List Char) : Nat :=
  if s = ['W'] then 0
  else if s = ['U'] then 1
  else if s = ['B'] then 2
  else if s = ['R'] then 3
  else if s = ['G'] then 4
  else 5

def colorLe (a b : List Char) : Prop := colorOrd a ≤ colorOrd b

instance : DecidableRel colorLe := fun x y => Nat.decLe (colorOrd x) (colorOrd y)

instance : IsTotal (List Char) colorLe :=
  ⟨fun x y => Nat.le_total (colorOrd x) (colorOrd y)⟩

instance : IsTrans (List Char) colorLe :=
  ⟨fun _ _ _ h1 h2 => Nat.le_trans h1 h2⟩

def get_color_string (colors : List (List Char)) : List Char :=
  if colors.isEmpty then []
  else (List.insertionSort colorLe colors).flatten

def get_color_id (colors : List (List Char)) : List Char :=
  if colors.isEmpty then []
  else (List.insertionSort colorLe colors).flatten

/-! ### Substring tests

Python's `pat in s` for strings.  `listIsPref pat s` is true when `pat` is a
leading segment of `s`; `listIsSub` scans every suffix. -/

def listIsPref : List Char → List Char → Bool
  | [], _ => true
  | _ :: _, [] => false
  | a :: as, b :: bs => a = b && listIsPref as bs

def listIsSub (pat : List Char) : List Char → Bool
  | [] => listIsPref pat []
  | c :: r => listIsPref pat (c :: r) || listIsSub pat r

theorem listIsPref_iff (p s : List Char) :
    listIsPref p s = true ↔ ∃ t, s = p ++ t := by
  induction p generalizing s with
  | nil => simp [listIsPref]
  | cons a as ih =>
    cases s with
    | nil => simp [listIsPref]
    | cons b bs =>
      simp only [listIsPref, Bool.and_eq_true, decide_eq_true_eq, ih]
      constructor
      · rintro ⟨rfl, t, rfl⟩; exact ⟨t, rfl⟩
      · rintro ⟨t, h⟩
        injection h with h1 h2
        exact ⟨h1.symm, t, h2⟩

theorem listIsSub_iff (p s : List Char) :
    listIsSub p s = true ↔ ∃ u v, s = u ++ p ++ v := by
  induction s with
  | nil =>
    simp only [listIsSub, listIsPref_iff]
    constructor
    · rintro ⟨t, ht⟩
      refine ⟨[], t, by simpa using ht⟩
    · rintro ⟨u, v, huv⟩
      have hu : u = [] := by cases u <;> simp_all
      subst hu
      exact ⟨v, by simpa using huv⟩
  | cons c r ih =>
    simp only [listIsSub, Bool.or_eq_true, listIsPref_iff, ih]
    constructor
    · rintro (⟨t, ht⟩ | ⟨u, v, rfl⟩)
      · exact ⟨[], t, by simpa using ht⟩
      · exact ⟨c :: u, v, rfl⟩
    · rintro ⟨u, v, huv⟩
      cases u with
      | nil => exact Or.inl ⟨v, by simpa using huv⟩
      | cons x xs =>
        injection huv with h1 h2
        exact Or.inr ⟨xs, v, h2⟩

/-! ### `get_sound` (fetch_set.py lines 174-202) -/

def sound_types : List (List Char) :=
  [['a','r','t','i','f','a','c','t'],
   ['i','n','s','t','a','n','t'],
   ['e','n','c','h','a','n','t','m','e','n','t'],
   ['s','o','r','c','e','r','y'],
   ['l','a','n','d']]

def creatureWord : List Char := ['c','r','e','a','t','u','r','e']

def get_sound (type_line : List Char) : List Char :=
  if type_line.isEmpty then []
  else
    let tl := type_line.map Char.toLower
    if listIsSub creatureWord tl then creatureWord
    else
      let matched := sound_types.filter (fun t => listIsSub t tl)
      if matched.length = 1 then matched.headD [] else []

/-! ### Collector-number sort key (fetch_set.py lines 407-424)

`sort_key` turns a collector number into a list of Python tuples, `(0, int)`
for each maximal digit run and `(1, char)` for each non-digit character;
`sorted` then compares those lists lexicographically. -/

inductive SKPart where
  | num (n : Nat)
  | chr (c : Char)
deriving DecidableEq

/-- The loop body of `sort_key`: `current` is the pending digit buffer. -/
def sort_key_go : List Char → List Char → List SKPart
  | [], current =>
    if current.isEmpty then [] else [SKPart.num (natOfDigits current)]
  | ch :: rest, current =>
    if ch.isDigit then sort_key_go rest (current ++ [ch])
    else
      (if current.isEmpty then [] else [SKPart.num (natOfDigits current)]) ++
        SKPart.chr ch :: sort_key_go rest []

def sort_key (col_num : List Char) : List SKPart :=
  sort_key_go col_num []

/-- Python's `<` on the tuples `(0, int)` / `(1, str)`. -/
def partLtB : SKPart → SKPart → Bool
  | SKPart.num n, SKPart.num m => n < m
  | SKPart.num _, SKPart.chr _ => true
  | SKPart.chr _, SKPart.num _ => false
  | SKPart.chr c, SKPart.chr d => c < d

/-- Python's `<` on lists: lexicographic, a strict prefix is smaller. -/
def keyLtB : List SKPart → List SKPart → Bool
  | [], [] => false
  | [], _ :: _ => true
  | _ :: _, [] => false
  | a :: as, b :: bs =>
    if partLtB a b then true
    else if partLtB b a then false
    else keyLtB as bs

theorem partLtB_asymm {a b : SKPart} (h : partLtB a b = true) :
    partLtB b a = false := by
  cases a <;> cases b <;> simp_all [partLtB]
  · omega
  · exact h.le

theorem partLtB_eq_of_not {a b : SKPart} (h1 : partLtB a b = false)
    (h2 : partLtB b a = false) : a = b := by
  cases a <;> cases b <;> simp_all [partLtB]
  · omega
  · exact le_antisymm h2 h1

theorem partLtB_trans {a b c : SKPart} (h1 : partLtB a b = true)
    (h2 : partLtB b c = true) : partLtB a c = true := by
  cases a <;> cases b <;> cases c <;> simp_all [partLtB]
  · omega
  · exact lt_trans h1 h2

theorem keyLtB_asymm {x y : List SKPart} (h : keyLtB x y = true) :
    keyLtB y x = false := by
  induction x generalizing y with
  | nil => cases y <;> simp_all [keyLtB]
  | cons a as ih =>
    cases y with
    | nil => simp_all [keyLtB]
    | cons b bs =>
      by_cases hab : partLtB a b = true
      · simp [keyLtB, partLtB_asymm hab, hab]
      · by_cases hba : partLtB b a = true
        · simp [keyLtB, hab, hba] at h
        · simp only [keyLtB, hab, hba, Bool.false_eq_true, if_false] at h ⊢
          simp only [Bool.not_eq_true] at hab hba
          simp [hab, hba, ih h]

theorem keyLtB_eq_of_not {x y : List SKPart} (h1 : keyLtB x y = false)
    (h2 : keyLtB y x = false) : x = y := by
  induction x generalizing y with
  | nil => cases y <;> simp_all [keyLtB]
  | cons a as ih =>
    cases y with
    | nil => simp_all [keyLtB]
    | cons b bs =>
      by_cases hab : partLtB a b = true
      · simp [keyLtB, hab] at h1
      · by_cases hba : partLtB b a = true
        · simp [keyLtB, hba, hab] at h2
        · simp only [Bool.not_eq_true] at hab hba
          simp only [keyLtB, hab, hba, Bool.false_eq_true, if_false] at h1 h2
          rw [partLtB_eq_of_not hab hba, ih h1 h2]

theorem keyLtB_trans {x y z : List SKPart} (h1 : keyLtB x y = true)
    (h2 : keyLtB y z = true) : keyLtB x z = true := by
  induction x generalizing y z with
  | nil =>
    cases y with
    | nil => simp_all [keyLtB]
    | cons b bs => cases z <;> simp_all [keyLtB]
  | cons a as ih =>
    cases y with
    | nil => simp_all [keyLtB]
    | cons b bs =>
      cases z with
      | nil => simp_all [keyLtB]
      | cons c cs =>
        by_cases hab : partLtB a b = true
        · by_cases hbc : partLtB b c = true
          · simp [keyLtB, partLtB_trans hab hbc]
          · by_cases hcb : partLtB c b = true
            · simp [keyLtB, hbc, hcb] at h2
            · have : b = c := partLtB_eq_of_not (by simpa using hbc) (by simpa using hcb)
              subst this
              simp [keyLtB, hab]
        · by_cases hba : partLtB b a = true
          · simp [keyLtB, hab, hba] at h1
          · have hab' : a = b := partLtB_eq_of_not (by simpa using hab) (by simpa using hba)
            subst hab'
            simp only [keyLtB, hab, Bool.false_eq_true, if_false, if_neg] at h1
            by_cases hac : partLtB a c = true
            · simp [keyLtB, hac]
            · by_cases hca : partLtB c a = true
              · simp [keyLtB, hac, hca] at h2
              · simp only [keyLtB, hac, hca, Bool.false_eq_true, if_false] at h2 ⊢
                simp only [Bool.not_eq_true] at hac hca
                simp [hac, hca, ih (by simpa [keyLtB, hab] using h1) h2]

/-! ### Oracle-text cleanup (fetch_set.py lines 290-293 and 358-361)

`re.sub(r'\s*\([^)]*\)\s*', ' ', text).strip()` followed by
`.replace("\n", " | ")`.  The regex finds, left to right and
non-overlapping, a maximal whitespace run followed by `(`, then everything
up to the first `)`, then a maximal whitespace run, and replaces the whole
match with a single space. -/

/-- Split a list at the first occurrence of `t`: `some (before, after)`
with the occurrence itself removed, `none` when `t` is absent. -/
def splitAtCh (t : Char) : List Char → Option (List Char × List Char)
  | [] => none
  | c :: cs =>
    if c = t then some ([], cs)
    else
      match splitAtCh t cs with
      | none => none
      | some (ins, aft) => some (c :: ins, aft)

theorem splitAtCh_none_iff (t : Char) (l : List Char) :
    splitAtCh t l = none ↔ t ∉ l := by
  induction l with
  | nil => simp [splitAtCh]
  | cons c cs ih =>
    by_cases hc : c = t
    · subst hc; simp [splitAtCh]
    · have hne : ¬ t = c := fun h => hc h.symm
      cases hs : splitAtCh t cs with
      | none =>
        have hcs : t ∉ cs := ih.mp hs
        simp [splitAtCh, if_neg hc, hs, hne, hcs]
      | some p =>
        obtain ⟨pa, pb⟩ := p
        have hcs : t ∈ cs := by
          by_contra hn
          simp [ih.mpr hn] at hs
        simp [splitAtCh, if_neg hc, hs, List.mem_cons, hcs]

theorem splitAtCh_eq_some {t : Char} {l a b : List Char}
    (h : splitAtCh t l = some (a, b)) : l = a ++ t :: b ∧ t ∉ a := by
  induction l generalizing a b with
  | nil => simp [splitAtCh] at h
  | cons c cs ih =>
    by_cases hc : c = t
    · subst hc
      simp only [splitAtCh, if_pos rfl, Option.some_inj, Prod.mk.injEq] at h
      obtain ⟨rfl, rfl⟩ := h
      simp
    · simp only [splitAtCh, if_neg hc] at h
      cases hs : splitAtCh t cs with
      | none => simp [hs] at h
      | some p =>
        obtain ⟨ins, aft⟩ := p
        rw [hs] at h
        simp only [Option.some_inj, Prod.mk.injEq] at h
        obtain ⟨rfl, rfl⟩ := h
        obtain ⟨hl, hna⟩ := ih hs
        subst hl
        refine ⟨by simp, ?_⟩
        simp only [List.mem_cons]
        rintro (h | h)
        · exact hc h.symm
        · exact hna h

theorem splitAtCh_of_append {t : Char} {a b : List Char} (ha : t ∉ a) :
    splitAtCh t (a ++ t :: b) = some (a, b) := by
  induction a with
  | nil => simp [splitAtCh]
  | cons c cs ih =>
    have hc : c ≠ t := fun h => ha (by simp [h])
    have hcs : t ∉ cs := fun h => ha (by simp [h])
    simp [splitAtCh, if_neg hc, ih hcs]

theorem splitAtCh_length {t : Char} {l a b : List Char}
    (h : splitAtCh t l = some (a, b)) : b.length < l.length := by
  obtain ⟨hl, -⟩ := splitAtCh_eq_some h
  subst hl
  simp
  omega

theorem length_dropWhile_le' (p : Char → Bool) (l : List Char) :
    (l.dropWhile p).length ≤ l.length := by
  induction l with
  | nil => simp
  | cons c cs ih =>
    by_cases hc : p c = true
    · simp only [List.dropWhile, hc]
      exact Nat.le_succ_of_le ih
    · simp [List.dropWhile, hc]

/-- Does the regex `\s*\([^)]*\)\s*` match at the start of `s`?  If so,
return the remainder of `s` after the (greedy) match. -/
def matchParen (s : List Char) : Option (List Char) :=
  match s.dropWhile isPySpace with
  | [] => none
  | c :: r =>
    if c = '(' then
      match splitAtCh ')' r with
      | some (_, aft) => some (aft.dropWhile isPySpace)
      | none => none
    else none

theorem matchParen_length {s aft : List Char} (h : matchParen s = some aft) :
    aft.length < s.length := by
  unfold matchParen at h
  cases hd : s.dropWhile isPySpace with
  | nil => simp [hd] at h
  | cons c r =>
    rw [hd] at h
    dsimp only at h
    by_cases hc : c = '('
    · rw [if_pos hc] at h
      cases hs : splitAtCh ')' r with
      | none => simp [hs] at h
      | some p =>
        obtain ⟨ins, a0⟩ := p
        rw [hs] at h
        simp only [Option.some_inj] at h
        subst h
        have h1 : a0.length < r.length := splitAtCh_length hs
        have h2 : r.length < s.length := by
          have := length_dropWhile_le' isPySpace s
          rw [hd] at this
          simp at this
          omega
        have h3 := length_dropWhile_le' isPySpace a0
        omega
    · rw [if_neg hc] at h
      simp at h

/-- `re.sub(r'\s*\([^)]*\)\s*', ' ', s)`: replace each (leftmost,
non-overlapping) match with a single space. -/
def subParens (s : List Char) : List Char :=
  match s with
  | [] => []
  | c :: rest =>
    match h : matchParen (c :: rest) with
    | some aft => ' ' :: subParens aft
    | none => c :: subParens rest
termination_by s.length
decreasing_by
  · exact matchParen_length h
  · simp

theorem subParens_nil : subParens [] = [] := by
  rw [subParens]

theorem subParens_matchSome {c : Char} {rest aft : List Char}
    (h : matchParen (c :: rest) = some aft) :
    subParens (c :: rest) = ' ' :: subParens aft := by
  rw [subParens, h]

theorem subParens_matchNone {c : Char} {rest : List Char}
    (h : matchParen (c :: rest) = none) :
    subParens (c :: rest) = c :: subParens rest := by
  rw [subParens, h]

/-- Python `str.strip()`: drop leading and trailing whitespace. -/
def stripWs (l : List Char) : List Char :=
  (((l.dropWhile isPySpace).reverse.dropWhile isPySpace)).reverse

/-- Python `str.replace("\n", " | ")`. -/
def replaceNewlines : List Char → List Char
  | [] => []
  | c :: r =>
    if c = '\n' then ' ' :: '|' :: ' ' :: replaceNewlines r
    else c :: replaceNewlines r

/-- The whole oracle-text cleanup used by `format_card` and
`format_back_card`. -/
def clean_oracle (t : List Char) : List Char :=
  replaceNewlines (stripWs (subParens t))

/-! ### Data model

Scryfall cards are JSON dictionaries; we model the fields the scripts read.
A missing `card_faces` key is modelled as `[]`; a missing or empty (falsy)
`image_uris` dictionary as `none`.  `cmc` is modelled as a `Nat` (the
scripts render it with `str(int(cmc))`, and nothing verified here depends
on fractional mana values). -/

structure ImageUris where
  border_crop : Option (List Char)
  large : Option (List Char)
  normal : Option (List Char)
  small : Option (List Char)
deriving DecidableEq

structure Face where
  name : List Char
  mana_cost : List Char
  colors : List (List Char)
  type_line : List Char
  power : List Char
  toughness : List Char
  loyalty : List Char
  oracle_text : List Char
  image_uris : Option ImageUris
deriving DecidableEq

structure Card where
  name : List Char
  collector_number : List Char
  mana_cost : List Char
  colors : List (List Char)
  cmc : Nat
  type_line : List Char
  power : List Char
  toughness : List Char
  loyalty : List Char
  rarity : List Char
  oracle_text : List Char
  image_uris : Option ImageUris
  card_faces : List Face
deriving DecidableEq

/-- `image_uris.get("border_crop") or ... or image_uris.get("small")`. -/
def preferredUrl (u : ImageUris) : Option (List Char) :=
  match u.border_crop with
  | some x => some x
  | none =>
    match u.large with
    | some x => some x
    | none =>
      match u.normal with
      | some x => some x
      | none => u.small

/-- `get_image_url` (fetch_set.py lines 527-545): prefer the first face's
image dictionary, falling back to the card-level one. -/
def get_image_url (c : Card) : Option (List Char) :=
  match c.card_faces.head? with
  | some f =>
    match f.image_uris with
    | some u => preferredUrl u
    | none =>
      match c.image_uris with
      | some u => preferredUrl u
      | none => none
  | none =>
    match c.image_uris with
    | some u => preferredUrl u
    | none => none

/-- `get_script` (fetch_set.py lines 152-171). -/
def get_script (c : Card) (set_code : List Char) : List Char :=
  match c.card_faces with
  | _ :: f1 :: _ =>
    ['<','s','>','<','l','>','C','r','e','a','t','e',' ','o','t','h','e','r',
     ' ','s','i','d','e','<','/','l','>','<','f','>','/','s','p','a','w','n',
     ' ','['] ++ set_code ++ [']',' '] ++ f1.name ++ ['<','/','f','>','<','/','s','>']
  | _ => []

/-- `card.get("rarity", "").upper()[0] if card.get("rarity") else ""`. -/
def rarityInitial (r : List Char) : List Char :=
  match r with
  | [] => []
  | c :: _ => [c.toUpper]

/-- `format_card` (fetch_set.py lines 251-319), as the list of 17 fields
that get tab-joined.  `none` models the `ValueError` that
`convert_mana_cost` raises on a malformed cost. -/
def format_card_fields (c : Card) (set_code : List Char) : Option (List (List Char)) :=
  match c.card_faces with
  | f0 :: _ :: _ =>
    match convert_mana_cost f0.mana_cost with
    | none => none
    | some cost =>
      some [c.name, set_code, set_code ++ '/' :: c.collector_number ++ ['a'],
            set_code, get_color_string f0.colors, get_color_id f0.colors, cost,
            (Nat.repr c.cmc).toList, f0.type_line, f0.power, f0.toughness,
            f0.loyalty, rarityInitial c.rarity, [], get_sound f0.type_line,
            get_script c set_code, clean_oracle f0.oracle_text]
  | _ =>
    match convert_mana_cost c.mana_cost with
    | none => none
    | some cost =>
      some [c.name, set_code, set_code ++ '/' :: c.collector_number,
            set_code, get_color_string c.colors, get_color_id c.colors, cost,
            (Nat.repr c.cmc).toList, c.type_line, c.power, c.toughness,
            c.loyalty, rarityInitial c.rarity, [], get_sound c.type_line,
            get_script c set_code, clean_oracle c.oracle_text]

/-- `format_back_card` (fetch_set.py lines 322-389); `none` also models the
Python `None` returned for cards with fewer than two faces. -/
def format_back_card_fields (c : Card) (set_code : List Char) :
    Option (Option (List (List Char))) :=
  match c.card_faces with
  | _ :: f1 :: _ =>
    match convert_mana_cost f1.mana_cost with
    | none => none
    | some cost =>
      some (some
        ['[' :: set_code ++ [']', ' '] ++ f1.name, set_code,
         set_code ++ '/' :: c.collector_number ++ ['b'], set_code,
         get_color_string f1.colors, get_color_id f1.colors, cost,
         (Nat.repr c.cmc).toList, f1.type_line, f1.power, f1.toughness,
         f1.loyalty, rarityInitial c.rarity, [], get_sound f1.type_line,
         [], clean_oracle f1.oracle_text])
  | _ => some none

/-- The records written for one card by the `write_set_file` loop
(fetch_set.py lines 434-439): the front-face record, plus the back-face
record when `format_back_card` returns one. -/
def emit_records (c : Card) (set_code : List Char) :
    Option (List (List (List Char))) :=
  match format_card_fields c set_code with
  | none => none
  | some front =>
    match format_back_card_fields c set_code with
    | none => none
    | some none => some [front]
    | some (some back) => some [front, back]

/-! ### Sorting cards in `write_set_file` (fetch_set.py line 424)

`sorted(cards, key=sort_key)` is a stable sort by the key above; we embed
it with the stable `List.insertionSort`. -/

/-- `key(a) <= key(b)`, i.e. not `key(b) < key(a)` in Python's list order. -/
def keyLeB (x y : List SKPart) : Bool := !(keyLtB y x)

def cardLe (a b : Card) : Prop :=
  keyLeB (sort_key a.collector_number) (sort_key b.collector_number) = true

instance : DecidableRel cardLe := fun x y => by
  unfold cardLe
  infer_instance

instance : IsTotal Card cardLe := by
  refine ⟨fun x y => ?_⟩
  unfold cardLe keyLeB
  by_cases h : keyLtB (sort_key y.collector_number) (sort_key x.collector_number) = true
  · exact Or.inr (by simp [keyLtB_asymm h])
  · exact Or.inl (by simp [h])

instance : IsTrans Card cardLe := by
  refine ⟨fun x y z h1 h2 => ?_⟩
  unfold cardLe keyLeB at h1 h2 ⊢
  simp only [Bool.not_eq_true'] at h1 h2 ⊢
  by_contra hzx
  simp only [Bool.not_eq_false] at hzx
  by_cases hyz : keyLtB (sort_key y.collector_number) (sort_key z.collector_number) = true
  · exact absurd (keyLtB_trans hyz hzx) (by simp [h1])
  · have : sort_key y.collector_number = sort_key z.collector_number :=
      keyLtB_eq_of_not (by simpa using hyz) h2
    rw [this] at h1
    exact absurd hzx (by simp [h1])

/-- The card ordering applied by `write_set_file` before writing. -/
def sortCards (cards : List Card) : List Card :=
  List.insertionSort cardLe cards

/-! ### `update_list_file` (fetch_set.py lines 449-474) -/

def closingTag : List Char :=
  ['<','/','l','i','s','t','o','f','c','a','r','d','d','a','t','a','f','i','l','e','s','>']

/-- `<filetoinclude>{set_code.lower()}.txt</filetoinclude>`. -/
def includeTag (set_code : List Char) : List Char :=
  ['<','f','i','l','e','t','o','i','n','c','l','u','d','e','>'] ++
    set_code.map Char.toLower ++ ['.','t','x','t'] ++
    ['<','/','f','i','l','e','t','o','i','n','c','l','u','d','e','>']

/-- Python `str.replace(old, new)`: replace every (leftmost,
non-overlapping) occurrence of `old`.  Requires `old ≠ []`, which holds for
the closing tag. -/
def replaceAll (old new : List Char) (hne : old ≠ []) : List Char → List Char
  | [] => []
  | c :: r =>
    if listIsPref old (c :: r) then
      new ++ replaceAll old new hne ((c :: r).drop old.length)
    else
      c :: replaceAll old new hne r
termination_by s => s.length
decreasing_by
  · have : 1 ≤ old.length := by
      cases old with
      | nil => exact absurd rfl hne
      | cons x xs => simp
    simp only [List.length_drop, List.length_cons]
    omega
  · simp

/-- `update_list_file`, as the transformation applied to the manifest text.
On the first branch (tag already present) and on a missing closing tag the
file is not rewritten, so the content is returned unchanged. -/
def update_list_file (set_code content : List Char) : List Char :=
  if listIsSub (includeTag set_code) content then content
  else if listIsSub closingTag content then
    replaceAll closingTag (includeTag set_code ++ '\n' :: closingTag)
      (by simp [closingTag]) content
  else content

/-! ### `deduplicate_output_file` (fetch_set.py lines 477-524)

The file is modelled as its list of lines, each line without its trailing
newline (the code strips `'\n'` before splitting, and otherwise moves whole
lines around, so nothing depends on the terminators). -/

/-- `line.strip() == ""`. -/
def isBlankLine (l : List Char) : Bool := l.all isPySpace

/-- Python `line.split('\t')`. -/
def splitTab : List Char → List (List Char)
  | [] => [[]]
  | c :: r =>
    if c = '\t' then [] :: splitTab r
    else
      match splitTab r with
      | [] => [[c]]
      | f :: rest => (c :: f) :: rest

/-- The dedup key `(parts[0], parts[2])`, available when the line has at
least three tab-separated fields. -/
def lineKey (l : List Char) : Option (List Char × List Char) :=
  let parts := splitTab l
  if 3 ≤ parts.length then some (parts.getD 0 [], parts.getD 2 []) else none

/-- The reverse-scan loop: keep a line when its key is defined and not yet
seen, accumulating seen keys. -/
def dedupAux : List (List Char) → List (List Char × List Char) → List (List Char)
  | [], _ => []
  | l :: ls, seen =>
    match lineKey l with
    | none => dedupAux ls seen
    | some k =>
      if k ∈ seen then dedupAux ls seen
      else l :: dedupAux ls (k :: seen)

/-- `deduplicate_output_file` as a transformation on the list of lines. -/
def deduplicate_output_file (lines : List (List Char)) : List (List Char) :=
  match lines with
  | [] => []
  | header :: rest =>
    let blanks := rest.takeWhile isBlankLine
    let data := rest.dropWhile isBlankLine
    header :: (blanks ++ (dedupAux data.reverse []).reverse)

/-- Specification-level description of the survivors: a line is kept
exactly when it has a key and no later line has the same key. -/
def keysOf (ls : List (List Char)) : List (List Char × List Char) :=
  ls.filterMap lineKey

def keepLast : List (List Char) → List (List Char)
  | [] => []
  | l :: ls =>
    match lineKey l with
    | none => keepLast ls
    | some k => if k ∈ keysOf ls then keepLast ls else l :: keepLast ls

/-! ### `download_card_image` (fetch_set.py lines 548-631)

Effects are made explicit: the filesystem is a list of `(path, content)`
pairs, HTTP is an oracle `fetch : url → Option bytes` (`none` models a
`RequestException`; the URL is recorded as issued either way), and
`decode : bytes → Option bytes` models `Image.open`/`resize`/`save`
(`none` models a PIL failure).  The outer `Option` in the result models an
uncaught exception (in the single-faced branch only `RequestException` is
caught, so a decode failure propagates).  Directory creation touches no
files and is not modelled. -/

def pathExists (fs : List (List Char × List Char)) (p : List Char) : Bool :=
  fs.any (fun q => q.1 = p)

/-- `setimages` directory for a card:
`base/setcode/setcode` or `base/setcode/tsetcode` for tokens. -/
def imageDir (c : Card) (set_code base : List Char) : List Char :=
  let sc := set_code.map Char.toLower
  let sub := if listIsSub ['t','o','k','e','n'] (c.type_line.map Char.toLower)
             then 't' :: sc else sc
  base ++ '/' :: sc ++ '/' :: sub

/-- URL for one face of a double-faced card
(`face.get("image_uris", {})` followed by the preference chain). -/
def faceUrl (f : Face) : Option (List Char) :=
  match f.image_uris with
  | none => none
  | some u => preferredUrl u

/-- The loop over `enumerate(card["card_faces"])`; `i` is the enumeration
index, giving the `chr(97 + i)` suffix. -/
def dfcLoop (fetch decode : List Char → Option (List Char))
    (dir collector : List Char) :
    List Face → Nat → List (List Char × List Char) →
    Bool × List (List Char × List Char) × List (List Char)
  | [], _, fs => (true, fs, [])
  | f :: rest, i, fs =>
    match faceUrl f with
    | none =>
      let (_, fs2, reqs) := dfcLoop fetch decode dir collector rest (i + 1) fs
      (false, fs2, reqs)
    | some url =>
      let path := dir ++ '/' :: collector ++ [Char.ofNat (97 + i)] ++ ['.','j','p','g']
      if pathExists fs path then dfcLoop fetch decode dir collector rest (i + 1) fs
      else
        match fetch url with
        | none =>
          let (_, fs2, reqs) := dfcLoop fetch decode dir collector rest (i + 1) fs
          (false, fs2, url :: reqs)
        | some bytes =>
          match decode bytes with
          | none =>
            let (_, fs2, reqs) := dfcLoop fetch decode dir collector rest (i + 1) fs
            (false, fs2, url :: reqs)
          | some img =>
            let (s, fs2, reqs) :=
              dfcLoop fetch decode dir collector rest (i + 1) (fs ++ [(path, img)])
            (s, fs2, url :: reqs)

/-- `download_card_image` with explicit filesystem and request log. -/
def download_card_image (fetch decode : List Char → Option (List Char))
    (c : Card) (set_code base : List Char) (fs : List (List Char × List Char)) :
    Option (Bool × List (List Char × List Char) × List (List Char)) :=
  let dir := imageDir c set_code base
  if 2 ≤ c.card_faces.length then
    some (dfcLoop fetch decode dir c.collector_number c.card_faces 0 fs)
  else
    match get_image_url c with
    | none => some (false, fs, [])
    | some url =>
      let path := dir ++ '/' :: c.collector_number ++ ['.','j','p','g']
      if pathExists fs path then some (true, fs, [])
      else
        match fetch url with
        | none => some (false, fs, [url])
        | some bytes =>
          match decode bytes with
          | none => none
          | some img => some (true, fs ++ [(path, img)], [url])

inductive DLCat where
  | successful
  | failed
  | skipped
deriving DecidableEq

/-- How `download_set_images` (fetch_set.py lines 646-657) counts this
card, given the result of `download_card_image`. -/
def classify (fetch decode : List Char → Option (List Char))
    (c : Card) (set_code base : List Char)
    (fs : List (List Char × List Char)) : Option DLCat :=
  match download_card_image fetch decode c set_code base fs with
  | none => none
  | some (true, _, _) => some DLCat.successful
  | some (false, _, _) =>
    if get_image_url c = none then some DLCat.skipped else some DLCat.failed

/-- The image paths the function would write for this card. -/
def targetPaths (c : Card) (set_code base : List Char) : List (List Char) :=
  let dir := imageDir c set_code base
  if 2 ≤ c.card_faces.length then
    (List.range c.card_faces.length).map
      (fun i => dir ++ '/' :: c.collector_number ++ [Char.ofNat (97 + i)] ++ ['.','j','p','g'])
  else [dir ++ '/' :: c.collector_number ++ ['.','j','p','g']]

/-- Whether every face (resp. the card) resolves an image URL: the
condition under which the all-files-present re-run is counted successful. -/
def allResolvable (c : Card) : Bool :=
  if 2 ≤ c.card_faces.length then c.card_faces.all (fun f => (faceUrl f).isSome)
  else (get_image_url c).isSome

/-! ## Claims -/

/-! ### C2 / C10: `convert_mana_cost` -/

theorem cmcGo_false_no_brace {s : List Char} (h : '{' ∉ s) :
    cmcGo false s = some [] := by
  induction s with
  | nil => rfl
  | cons c r ih =>
    have hc : ¬ c = '{' := fun hh => h (by simp [hh])
    simp only [cmcGo, if_neg hc]
    exact ih (fun hm => h (List.mem_cons_of_mem _ hm))

theorem cmcGo_true_token {ins rest : List Char} (h : '}' ∉ ins) :
    cmcGo true (ins ++ '}' :: rest) =
      (cmcGo false rest).map (fun r => ins.map Char.toUpper ++ '}' :: r) := by
  induction ins with
  | nil => cases hr : cmcGo false rest <;> simp [cmcGo, hr]
  | cons c ins' ih =>
    have hc : ¬ c = '}' := fun hh => h (by simp [hh])
    have h' : '}' ∉ ins' := fun hm => h (List.mem_cons_of_mem _ hm)
    have hstep : cmcGo true (c :: (ins' ++ '}' :: rest)) =
        (cmcGo true (ins' ++ '}' :: rest)).map (fun t => c.toUpper :: t) := by
      simp [cmcGo, if_neg hc]
    rw [List.cons_append, hstep, ih h']
    cases cmcGo false rest <;> simp

theorem cmcGo_false_token {pre ins rest : List Char}
    (hp : '{' ∉ pre) (hi : '}' ∉ ins) :
    cmcGo false (pre ++ '{' :: (ins ++ '}' :: rest)) =
      (cmcGo false rest).map (fun r => '{' :: ins.map Char.toUpper ++ '}' :: r) := by
  induction pre with
  | nil =>
    simp only [List.nil_append, cmcGo, if_pos rfl, cmcGo_true_token hi]
    cases cmcGo false rest <;> simp
  | cons c p ih =>
    have hc : ¬ c = '{' := fun hh => hp (by simp [hh])
    simp only [List.cons_append, cmcGo, if_neg hc]
    exact ih (fun hm => hp (List.mem_cons_of_mem _ hm))

/-- C2, counterexample: the claim says characters outside `{...}` tokens
pass through unchanged, so a brace-free string would map to itself; but the
loop advances over such characters without appending them, so `"a"` maps to
`""`, not `"a"`. -/
theorem claim2_counterexample :
    convert_mana_cost ['a'] = some [] ∧ convert_mana_cost ['a'] ≠ some ['a'] := by
  decide

/-- C2, amended: `convert_mana_cost` upper-cases the interior of each
`{...}` token but *drops* every character outside `{...}` tokens (so a
string with no braces maps to the empty string); the empty string maps to
the empty string. -/
theorem claim2_amended :
    convert_mana_cost [] = some [] ∧
    (∀ s : List Char, '{' ∉ s → convert_mana_cost s = some []) ∧
    (∀ pre ins rest : List Char, '{' ∉ pre → '}' ∉ ins →
      convert_mana_cost (pre ++ '{' :: (ins ++ '}' :: rest)) =
        (convert_mana_cost rest).map
          (fun r => '{' :: ins.map Char.toUpper ++ '}' :: r)) := by
  refine ⟨rfl, ?_, ?_⟩
  · intro s h
    exact cmcGo_false_no_brace h
  · intro pre ins rest hp hi
    exact cmcGo_false_token hp hi

/-- C2, amended, witness: `"x{2w}y"` maps to `"{2W}"`. -/
theorem claim2_amended_witness :
    ('{' ∉ ['x']) ∧ ('}' ∉ ['2', 'w']) ∧
    convert_mana_cost (['x'] ++ '{' :: (['2', 'w'] ++ '}' :: ['y'])) =
      (convert_mana_cost ['y']).map
        (fun r => '{' :: ['2', 'w'].map Char.toUpper ++ '}' :: r) :=
  ⟨by decide, by decide,
    claim2_amended.2.2 ['x'] ['2', 'w'] ['y'] (by decide) (by decide)⟩

theorem cmcGo_true_unclosed {v : List Char} (h : '}' ∉ v) :
    cmcGo true v = none := by
  induction v with
  | nil => rfl
  | cons c r ih =>
    have hc : ¬ c = '}' := fun hh => h (by simp [hh])
    simp [cmcGo, if_neg hc, ih (fun hm => h (List.mem_cons_of_mem _ hm))]

theorem cmcGo_unclosed {u v : List Char} (h : '}' ∉ v) :
    cmcGo false (u ++ '{' :: v) = none ∧ cmcGo true (u ++ '{' :: v) = none := by
  induction u with
  | nil =>
    have hv : '}' ∉ '{' :: v := by
      simp only [List.mem_cons]
      rintro (hh | hh)
      · exact absurd hh (by decide)
      · exact h hh
    constructor
    · simp [cmcGo, cmcGo_true_unclosed h]
    · simpa using cmcGo_true_unclosed hv
  | cons c u' ih =>
    constructor
    · by_cases hc : c = '{'
      · subst hc
        simp [cmcGo, ih.2]
      · simp [List.cons_append, cmcGo, if_neg hc, ih.1]
    · by_cases hc : c = '}'
      · subst hc
        simp [cmcGo, ih.1]
      · simp [List.cons_append, cmcGo, if_neg hc, ih.2]

/-- C10: `convert_mana_cost` is partial: an input containing a `{` with no
`}` at or after it makes `str.index` raise, modelled by `none`. -/
theorem claim10_unclosed_brace (u v : List Char) (h : '}' ∉ v) :
    convert_mana_cost (u ++ '{' :: v) = none :=
  (cmcGo_unclosed h).1

/-- C10, witness: the claim's example `"{2"` raises. -/
theorem claim10_unclosed_brace_witness :
    ('}' ∉ ['2']) ∧ convert_mana_cost ([] ++ '{' :: ['2']) = none :=
  ⟨by decide, claim10_unclosed_brace [] ['2'] (by decide)⟩

/-! ### C9: color ordering -/

/-- C9: `get_color_string` and `get_color_id` agree; the empty list yields
the empty string; and the output is the separator-free concatenation of a
reordering of the input in which the `{W:0, U:1, B:2, R:3, G:4, other:5}`
precedence is non-decreasing — so every `W` precedes every `U`, etc., and
letters outside WUBRG come after all five, whatever the input order. -/
theorem claim9_color_order (colors : List (List Char)) :
    get_color_id colors = get_color_string colors ∧
    get_color_string ([] : List (List Char)) = [] ∧
    ∃ reordered : List (List Char),
      reordered.Perm colors ∧
      reordered.Pairwise (fun a b => colorOrd a ≤ colorOrd b) ∧
      get_color_string colors = reordered.flatten := by
  refine ⟨rfl, rfl, List.insertionSort colorLe colors,
    List.perm_insertionSort _ _, List.sorted_insertionSort colorLe colors, ?_⟩
  unfold get_color_string
  by_cases h : colors.isEmpty
  · have : colors = [] := by
      cases colors with
      | nil => rfl
      | cons x xs => simp [List.isEmpty] at h
    subst this
    simp
  · simp [h]

/-! ### C3: collector-number ordering in `write_set_file` -/

/-- A card with the given collector number (other fields irrelevant to the
sort). -/
def mkCol (n : List Char) : Card :=
  { name := [], collector_number := n, mana_cost := [], colors := [],
    cmc := 0, type_line := [], power := [], toughness := [], loyalty := [],
    rarity := [], oracle_text := [], image_uris := none, card_faces := [] }

/-- C3: `write_set_file` orders cards by the decomposed collector-number
key (`sort_key`, digit runs as integers alternating with single non-digit
characters, compared lexicographically by `keyLtB`): the sort permutes the
input, every adjacent pair is ordered by the key, and the spec's example
`["10", "2", "1a", "1"]` comes out as `["1", "1a", "2", "10"]`. -/
theorem claim3_sort_order (cards : List Card) :
    (sortCards cards).Perm cards ∧
    (sortCards cards).Pairwise cardLe ∧
    (sortCards [mkCol ['1', '0'], mkCol ['2'], mkCol ['1', 'a'], mkCol ['1']]).map
        Card.collector_number = [['1'], ['1', 'a'], ['2'], ['1', '0']] := by
  exact ⟨List.perm_insertionSort _ _, List.sorted_insertionSort cardLe cards,
    by decide⟩

/-! ### C5: `get_sound` -/

theorem filter_eq_single {α : Type} [DecidableEq α] {l : List α} {p : α → Bool}
    {k : α} (hnd : l.Nodup) (hk : k ∈ l) (hp : p k = true)
    (hu : ∀ x ∈ l, p x = true → x = k) : l.filter p = [k] := by
  induction l with
  | nil => simp at hk
  | cons x xs ih =>
    rcases List.mem_cons.mp hk with rfl | hkxs
    · have hxs : xs.filter p = [] := by
        rw [List.filter_eq_nil_iff]
        intro y hy hpy
        have : y = k := hu y (List.mem_cons_of_mem _ hy) hpy
        subst this
        exact (List.nodup_cons.mp hnd).1 hy
      simp [List.filter_cons, hp, hxs]
    · have hx : p x = false := by
        by_contra hh
        simp only [Bool.not_eq_false] at hh
        have : x = k := hu x (List.mem_cons_self _ _) hh
        subst this
        exact (List.nodup_cons.mp hnd).1 hkxs
      rw [List.filter_cons_of_neg (by simp [hx])]
      exact ih (List.nodup_cons.mp hnd).2 hkxs
        (fun y hy hpy => hu y (List.mem_cons_of_mem _ hy) hpy)

/-- C5: on the lowercased type line, "creature" as a substring wins
unconditionally; otherwise exactly one matching keyword among
{artifact, instant, enchantment, sorcery, land} is returned, and zero or
two-or-more matches yield the empty string. -/
theorem claim5_get_sound (tl : List Char) :
    ((∃ u v, tl.map Char.toLower = u ++ creatureWord ++ v) →
        get_sound tl = creatureWord) ∧
    ((¬ ∃ u v, tl.map Char.toLower = u ++ creatureWord ++ v) →
      ∀ k, k ∈ sound_types →
        (∃ u v, tl.map Char.toLower = u ++ k ++ v) →
        (∀ k', k' ∈ sound_types →
          (∃ u v, tl.map Char.toLower = u ++ k' ++ v) → k' = k) →
        get_sound tl = k) ∧
    ((¬ ∃ u v, tl.map Char.toLower = u ++ creatureWord ++ v) →
      (¬ ∃ k, k ∈ sound_types ∧ (∃ u v, tl.map Char.toLower = u ++ k ++ v) ∧
        ∀ k', k' ∈ sound_types →
          (∃ u v, tl.map Char.toLower = u ++ k' ++ v) → k' = k) →
      get_sound tl = []) := by
  refine ⟨?_, ?_, ?_⟩
  · rintro ⟨u, v, huv⟩
    have hsub : listIsSub creatureWord (tl.map Char.toLower) = true :=
      (listIsSub_iff _ _).mpr ⟨u, v, huv⟩
    have hne : tl.isEmpty = false := by
      cases tl with
      | nil =>
        exfalso
        have : ([] : List Char) = u ++ creatureWord ++ v := by simpa using huv
        simp [creatureWord] at this
      | cons x xs => rfl
    simp [get_sound, hne, hsub]
  · intro hc k hk hex huniq
    have hsubk : listIsSub k (tl.map Char.toLower) = true :=
      (listIsSub_iff _ _).mpr hex
    have hnc : listIsSub creatureWord (tl.map Char.toLower) = false := by
      by_contra hh
      simp only [Bool.not_eq_false] at hh
      exact hc ((listIsSub_iff _ _).mp hh)
    have hne : tl.isEmpty = false := by
      cases tl with
      | nil =>
        exfalso
        obtain ⟨u, v, huv⟩ := hex
        have hlen := congrArg List.length huv
        simp only [List.map_nil, List.length_nil, List.length_append] at hlen
        have hk0 : 0 < k.length := by
          revert hk
          simp only [sound_types, List.mem_cons]
          rintro (rfl | rfl | rfl | rfl | rfl | hh)
          · decide
          · decide
          · decide
          · decide
          · decide
          · simp at hh
        omega
      | cons x xs => rfl
    have hfilter : sound_types.filter
        (fun t => listIsSub t (tl.map Char.toLower)) = [k] := by
      refine filter_eq_single (by decide) hk hsubk ?_
      intro x hx hpx
      exact huniq x hx ((listIsSub_iff _ _).mp hpx)
    simp [get_sound, hne, hnc, hfilter]
  · intro hc hnu
    have hnc : listIsSub creatureWord (tl.map Char.toLower) = false := by
      by_contra hh
      simp only [Bool.not_eq_false] at hh
      exact hc ((listIsSub_iff _ _).mp hh)
    by_cases hne : tl.isEmpty
    · simp [get_sound, hne]
    · have hlen : (sound_types.filter
          (fun t => listIsSub t (tl.map Char.toLower))).length ≠ 1 := by
        intro hlen1
        set m := sound_types.filter (fun t => listIsSub t (tl.map Char.toLower))
          with hm
        obtain ⟨k0, hk0⟩ : ∃ k0, m = [k0] := by
          cases hmm : m with
          | nil => simp [hmm] at hlen1
          | cons a as =>
            cases as with
            | nil => exact ⟨a, rfl⟩
            | cons b bs => simp [hmm] at hlen1
        refine hnu ⟨k0, ?_, ?_, ?_⟩
        · have : k0 ∈ m := by simp [hk0]
          exact (List.mem_filter.mp (hm ▸ this)).1
        · have : k0 ∈ m := by simp [hk0]
          have := (List.mem_filter.mp (hm ▸ this)).2
          exact (listIsSub_iff _ _).mp (by simpa using this)
        · intro k' hk' hex'
          have hsub' : listIsSub k' (tl.map Char.toLower) = true :=
            (listIsSub_iff _ _).mpr hex'
          have : k' ∈ m := hm ▸ List.mem_filter.mpr ⟨hk', by simpa using hsub'⟩
          rw [hk0] at this
          simpa using this
      simp only [get_sound, Bool.not_eq_true] at hne ⊢
      simp [hne, hnc, if_neg hlen]

/-- C5, witness: "Artifact Creature" → "creature"; "Instant" → "instant";
"Artifact Land" (two matches) → "". -/
theorem claim5_get_sound_witness :
    get_sound ['A','r','t','i','f','a','c','t',' ','C','r','e','a','t','u','r','e'] =
      creatureWord ∧
    get_sound ['I','n','s','t','a','n','t'] = ['i','n','s','t','a','n','t'] ∧
    get_sound ['A','r','t','i','f','a','c','t',' ','L','a','n','d'] = [] := by
  refine ⟨?_, ?_, ?_⟩
  · exact (claim5_get_sound _).1
      ⟨['a','r','t','i','f','a','c','t',' '], [], by decide⟩
  · refine (claim5_get_sound _).2.1
      (fun h => absurd ((listIsSub_iff _ _).mpr h) (by decide))
      ['i','n','s','t','a','n','t'] (by decide) ⟨[], [], by decide⟩ ?_
    have hall : ∀ k' ∈ sound_types,
        listIsSub k' (['I','n','s','t','a','n','t'].map Char.toLower) = true →
          k' = ['i','n','s','t','a','n','t'] := by decide
    intro k' hk' hex'
    exact hall k' hk' ((listIsSub_iff _ _).mpr hex')
  · refine (claim5_get_sound _).2.2
      (fun h => absurd ((listIsSub_iff _ _).mpr h) (by decide)) ?_
    rintro ⟨k, hk, hex, huniq⟩
    have h1 := huniq ['a','r','t','i','f','a','c','t'] (by decide)
      ⟨[], [' ','l','a','n','d'], by decide⟩
    have h2 := huniq ['l','a','n','d'] (by decide)
      ⟨['a','r','t','i','f','a','c','t',' '], [], by decide⟩
    rw [← h1] at h2
    exact absurd h2 (by decide)

/-! ### C4: double-faced card formatting -/

/-- C4: for a card with at least two faces, the front record's ImageFile
ends the collector number with `a` and its Color/ColorID/Cost/Type/Power/
Toughness/Loyalty/Text fields come from face 0; the back record's ImageFile
ends with `b`, its Name is face 1's name prefixed with `[<set code>] `, and
its other fields come from face 1; both carry the parent card's `cmc` as
ManaValue (field 7).  A card without faces gets no back record, so exactly
one record is emitted for it. -/
theorem emit_records_eq {c : Card} {sc : List Char} {F B : List (List Char)}
    (hA : format_card_fields c sc = some F)
    (hB : format_back_card_fields c sc = some (some B)) :
    emit_records c sc = some [F, B] := by
  unfold emit_records
  rw [hA]
  dsimp only
  rw [hB]

theorem claim4_double_faced (c : Card) (f0 f1 : Face) (rest : List Face)
    (sc k0 k1 : List Char)
    (hf : c.card_faces = f0 :: f1 :: rest)
    (h0 : convert_mana_cost f0.mana_cost = some k0)
    (h1 : convert_mana_cost f1.mana_cost = some k1) :
    format_card_fields c sc = some
      [c.name, sc, sc ++ '/' :: c.collector_number ++ ['a'], sc,
       get_color_string f0.colors, get_color_id f0.colors, k0,
       (Nat.repr c.cmc).toList, f0.type_line, f0.power, f0.toughness,
       f0.loyalty, rarityInitial c.rarity, [], get_sound f0.type_line,
       get_script c sc, clean_oracle f0.oracle_text] ∧
    format_back_card_fields c sc = some (some
      ['[' :: sc ++ [']', ' '] ++ f1.name, sc,
       sc ++ '/' :: c.collector_number ++ ['b'], sc,
       get_color_string f1.colors, get_color_id f1.colors, k1,
       (Nat.repr c.cmc).toList, f1.type_line, f1.power, f1.toughness,
       f1.loyalty, rarityInitial c.rarity, [], get_sound f1.type_line,
       [], clean_oracle f1.oracle_text]) ∧
    (∃ front back, emit_records c sc = some [front, back]) ∧
    (∀ (c' : Card) (sc' : List Char), c'.card_faces = [] →
      format_back_card_fields c' sc' = some none) ∧
    (∀ (c' : Card) (sc' : List Char) (front : List (List Char)),
      c'.card_faces = [] → format_card_fields c' sc' = some front →
      emit_records c' sc' = some [front]) := by
  have hA : format_card_fields c sc = some
      [c.name, sc, sc ++ '/' :: c.collector_number ++ ['a'], sc,
       get_color_string f0.colors, get_color_id f0.colors, k0,
       (Nat.repr c.cmc).toList, f0.type_line, f0.power, f0.toughness,
       f0.loyalty, rarityInitial c.rarity, [], get_sound f0.type_line,
       get_script c sc, clean_oracle f0.oracle_text] := by
    unfold format_card_fields
    rw [hf]
    dsimp only
    rw [h0]
  have hB : format_back_card_fields c sc = some (some
      ['[' :: sc ++ [']', ' '] ++ f1.name, sc,
       sc ++ '/' :: c.collector_number ++ ['b'], sc,
       get_color_string f1.colors, get_color_id f1.colors, k1,
       (Nat.repr c.cmc).toList, f1.type_line, f1.power, f1.toughness,
       f1.loyalty, rarityInitial c.rarity, [], get_sound f1.type_line,
       [], clean_oracle f1.oracle_text]) := by
    unfold format_back_card_fields
    rw [hf]
    dsimp only
    rw [h1]
  refine ⟨hA, hB, ?_, ?_, ?_⟩
  · exact ⟨_, _, emit_records_eq hA hB⟩
  · intro c' sc' hempty
    unfold format_back_card_fields
    rw [hempty]
  · intro c' sc' front hempty hfront
    unfold emit_records
    rw [hfront]
    dsimp only
    unfold format_back_card_fields
    rw [hempty]

def f0W : Face :=
  { name := ['F'], mana_cost := ['{', 'w', '}'], colors := [['W']],
    type_line := [], power := [], toughness := [], loyalty := [],
    oracle_text := [], image_uris := none }

def f1W : Face :=
  { name := ['B'], mana_cost := ['{', 'u', '}'], colors := [['U']],
    type_line := [], power := [], toughness := [], loyalty := [],
    oracle_text := [], image_uris := none }

def cW : Card :=
  { name := ['N'], collector_number := ['7'], mana_cost := [], colors := [],
    cmc := 3, type_line := [], power := [], toughness := [], loyalty := [],
    rarity := ['r'], oracle_text := [], image_uris := none,
    card_faces := [f0W, f1W] }

/-- C4, witness: a concrete two-faced card. -/
theorem claim4_double_faced_witness :
    cW.card_faces = [f0W, f1W] ∧
    convert_mana_cost f0W.mana_cost = some ['{', 'W', '}'] ∧
    format_card_fields cW ['s'] = some
      [cW.name, ['s'], ['s'] ++ '/' :: cW.collector_number ++ ['a'], ['s'],
       get_color_string f0W.colors, get_color_id f0W.colors, ['{', 'W', '}'],
       (Nat.repr cW.cmc).toList, f0W.type_line, f0W.power, f0W.toughness,
       f0W.loyalty, rarityInitial cW.rarity, [], get_sound f0W.type_line,
       get_script cW ['s'], clean_oracle f0W.oracle_text] :=
  ⟨rfl, by decide,
    (claim4_double_faced cW f0W f1W [] ['s'] ['{', 'W', '}'] ['{', 'U', '}']
      rfl (by decide) (by decide)).1⟩

/-! ### C7: `update_list_file` -/

theorem listIsSub_of_pref {p s : List Char} (h : listIsPref p s = true) :
    listIsSub p s = true := by
  cases s with
  | nil => simpa [listIsSub] using h
  | cons c r => simp [listIsSub, h]

theorem listIsSub_cons (c : Char) {p t : List Char}
    (h : listIsSub p t = true) : listIsSub p (c :: t) = true := by
  simp [listIsSub, h]

theorem listIsSub_append_pre (s : List Char) {p t : List Char}
    (h : listIsSub p t = true) : listIsSub p (s ++ t) = true := by
  induction s with
  | nil => simpa
  | cons c cs ih => simpa using listIsSub_cons c ih

theorem listIsSub_append_post (u : List Char) {p t : List Char}
    (h : listIsSub p t = true) : listIsSub p (t ++ u) = true := by
  obtain ⟨a, b, rfl⟩ := (listIsSub_iff _ _).mp h
  exact (listIsSub_iff _ _).mpr ⟨a, b ++ u, by simp⟩

theorem listIsSub_self (p : List Char) : listIsSub p p = true :=
  (listIsSub_iff _ _).mpr ⟨[], [], by simp⟩

theorem replaceAll_nil (old new : List Char) (hne : old ≠ []) :
    replaceAll old new hne [] = [] := by
  rw [replaceAll]

theorem replaceAll_cons_pref {old : List Char} (new : List Char) (hne : old ≠ [])
    {c : Char} {r : List Char} (h : listIsPref old (c :: r) = true) :
    replaceAll old new hne (c :: r) =
      new ++ replaceAll old new hne ((c :: r).drop old.length) := by
  rw [replaceAll, if_pos h]

theorem replaceAll_cons_not {old : List Char} (new : List Char) (hne : old ≠ [])
    {c : Char} {r : List Char} (h : listIsPref old (c :: r) = false) :
    replaceAll old new hne (c :: r) = c :: replaceAll old new hne r := by
  rw [replaceAll, if_neg (by simp [h])]

theorem replaceAll_of_not_sub {old new s : List Char} (hne : old ≠ [])
    (h : listIsSub old s = false) : replaceAll old new hne s = s := by
  induction s with
  | nil => rw [replaceAll]
  | cons c r ih =>
    rw [listIsSub] at h
    have h2 := Bool.or_eq_false_iff.mp h
    rw [replaceAll_cons_not new hne h2.1, ih h2.2]

theorem sub_replaceAll {old new s p : List Char} (hne : old ≠ [])
    (hp : listIsSub p new = true) (hs : listIsSub old s = true) :
    listIsSub p (replaceAll old new hne s) = true := by
  induction s with
  | nil =>
    exfalso
    cases old with
    | nil => exact hne rfl
    | cons o os => simp [listIsSub, listIsPref] at hs
  | cons c r ih =>
    cases hpre : listIsPref old (c :: r) with
    | true =>
      rw [replaceAll_cons_pref new hne hpre]
      exact listIsSub_append_post _ hp
    | false =>
      rw [replaceAll_cons_not new hne hpre]
      have hr : listIsSub old r = true := by
        rw [listIsSub, Bool.or_eq_true] at hs
        rcases hs with h | h
        · exact absurd h (by simp [hpre])
        · exact h
      exact listIsSub_cons c (ih hr)

theorem replaceAll_unique {old new pre post : List Char} (hne : old ≠ [])
    (huniq : ∀ a b : List Char, pre ++ (old ++ post) = a ++ (old ++ b) → a = pre) :
    replaceAll old new hne (pre ++ (old ++ post)) = pre ++ (new ++ post) := by
  induction pre with
  | nil =>
    obtain ⟨o, os, rfl⟩ : ∃ o os, old = o :: os := by
      cases old with
      | nil => exact absurd rfl hne
      | cons o os => exact ⟨o, os, rfl⟩
    have hpostsub : listIsSub (o :: os) post = false := by
      by_contra hh
      simp only [Bool.not_eq_false] at hh
      obtain ⟨a, b, rfl⟩ := (listIsSub_iff _ _).mp hh
      have := huniq ((o :: os) ++ a) b (by simp)
      simp at this
    have hpref : listIsPref (o :: os) ((o :: os) ++ post) = true :=
      (listIsPref_iff _ _).mpr ⟨post, rfl⟩
    rw [List.nil_append, show (o :: os) ++ post = o :: (os ++ post) from rfl]
    rw [replaceAll_cons_pref new hne (by simp only [List.cons_append] at hpref; exact hpref)]
    have hdrop : (o :: (os ++ post)).drop (o :: os).length = post := by
      have := List.drop_left (o :: os) post
      simpa using this
    rw [hdrop, replaceAll_of_not_sub hne hpostsub, List.nil_append]
  | cons x pre' ih =>
    have hpref : listIsPref old (x :: (pre' ++ (old ++ post))) = false := by
      cases hpp : listIsPref old (x :: (pre' ++ (old ++ post))) with
      | false => rfl
      | true =>
        exfalso
        obtain ⟨t, ht⟩ := (listIsPref_iff _ _).mp hpp
        have := huniq [] t (by rw [List.nil_append, ← ht]; rfl)
        simp at this
    rw [show (x :: pre') ++ (old ++ post) = x :: (pre' ++ (old ++ post)) from rfl]
    rw [replaceAll_cons_not new hne hpref]
    have huniq' : ∀ a b : List Char,
        pre' ++ (old ++ post) = a ++ (old ++ b) → a = pre' := by
      intro a b hab
      have := huniq (x :: a) b (by rw [show (x :: a) ++ (old ++ b) = x :: (a ++ (old ++ b)) from rfl, ← hab]; rfl)
      injection this with _ h2
    rw [ih huniq']
    rfl

theorem unique_occ_of_bounds {old pre post : List Char} (hne : old ≠ [])
    (h1 : listIsSub old
      ((pre ++ (old ++ post)).take (pre.length + old.length - 1)) = false)
    (h2 : listIsSub old
      ((pre ++ (old ++ post)).drop (pre.length + 1)) = false) :
    ∀ a b : List Char, pre ++ (old ++ post) = a ++ (old ++ b) → a = pre := by
  intro a b hab
  have holdpos : 1 ≤ old.length := by
    cases old with
    | nil => exact absurd rfl hne
    | cons o os => simp
  rcases Nat.lt_trichotomy a.length pre.length with hlt | heq | hgt
  · exfalso
    have htake : (pre ++ (old ++ post)).take (a.length + old.length) = a ++ old := by
      rw [hab, List.take_append, List.take_left]
    have hsub : listIsSub old
        ((pre ++ (old ++ post)).take (a.length + old.length)) = true := by
      rw [htake]
      exact listIsSub_append_pre a (listIsSub_self old)
    have hmono : listIsSub old
        ((pre ++ (old ++ post)).take (pre.length + old.length - 1)) = true := by
      have hsplit := List.take_add (pre ++ (old ++ post)) (a.length + old.length)
        ((pre.length + old.length - 1) - (a.length + old.length))
      rw [show (a.length + old.length) +
          ((pre.length + old.length - 1) - (a.length + old.length)) =
          pre.length + old.length - 1 from by omega] at hsplit
      rw [hsplit]
      exact listIsSub_append_post _ hsub
    rw [h1] at hmono
    exact Bool.false_ne_true hmono
  · exact List.append_inj_left hab.symm heq
  · exfalso
    have hdrop : (pre ++ (old ++ post)).drop (pre.length + 1) =
        a.drop (pre.length + 1) ++ (old ++ b) := by
      rw [hab, List.drop_append_of_le_length (by omega)]
    have hsub : listIsSub old
        ((pre ++ (old ++ post)).drop (pre.length + 1)) = true := by
      rw [hdrop]
      exact listIsSub_append_pre _ (listIsSub_append_post _ (listIsSub_self old))
    rw [h2] at hsub
    exact Bool.false_ne_true hsub

/-- C7: `update_list_file` is an idempotent insert on the manifest text:
(a) if the include tag for the set's filename already occurs, the text is
unchanged; (b) if the closing tag is absent, the text is unchanged; (c) if
the include tag is absent and the closing tag occurs (once — the two
`take`/`drop` hypotheses say no occurrence starts before or after position
`pre.length`), the include tag plus a newline is inserted immediately
before it; and (d) applying the operation twice equals applying it once. -/
theorem claim7_idempotent_insert (set_code : List Char) :
    (∀ content, listIsSub (includeTag set_code) content = true →
      update_list_file set_code content = content) ∧
    (∀ content, listIsSub closingTag content = false →
      update_list_file set_code content = content) ∧
    (∀ pre post,
      listIsSub (includeTag set_code) (pre ++ (closingTag ++ post)) = false →
      listIsSub closingTag ((pre ++ (closingTag ++ post)).take
        (pre.length + closingTag.length - 1)) = false →
      listIsSub closingTag
        ((pre ++ (closingTag ++ post)).drop (pre.length + 1)) = false →
      update_list_file set_code (pre ++ (closingTag ++ post)) =
        pre ++ (includeTag set_code ++ ('\n' :: closingTag ++ post))) ∧
    (∀ content,
      update_list_file set_code (update_list_file set_code content) =
        update_list_file set_code content) := by
  have hne : closingTag ≠ [] := by simp [closingTag]
  refine ⟨?_, ?_, ?_, ?_⟩
  · intro content h
    simp [update_list_file, h]
  · intro content h
    by_cases h1 : listIsSub (includeTag set_code) content = true
    · simp [update_list_file, h1]
    · simp [update_list_file, h1, h]
  · intro pre post htag h1 h2
    have hclosing : listIsSub closingTag (pre ++ (closingTag ++ post)) = true :=
      listIsSub_append_pre pre (listIsSub_append_post post (listIsSub_self _))
    have huniq := unique_occ_of_bounds hne h1 h2
    have hrepl : replaceAll closingTag (includeTag set_code ++ '\n' :: closingTag)
        hne (pre ++ (closingTag ++ post)) =
        pre ++ ((includeTag set_code ++ '\n' :: closingTag) ++ post) :=
      replaceAll_unique hne huniq
    simp only [update_list_file, htag, Bool.false_eq_true, if_false, hclosing,
      if_true]
    rw [hrepl]
    simp
  · intro content
    by_cases h1 : listIsSub (includeTag set_code) content = true
    · simp [update_list_file, h1]
    · by_cases h2 : listIsSub closingTag content = true
      · have hr : update_list_file set_code content =
            replaceAll closingTag (includeTag set_code ++ '\n' :: closingTag)
              (by simp [closingTag]) content := by
          simp [update_list_file, h1, h2]
        rw [hr]
        have htagin : listIsSub (includeTag set_code)
            (replaceAll closingTag (includeTag set_code ++ '\n' :: closingTag)
              (by simp [closingTag]) content) = true := by
          refine sub_replaceAll _ ?_ h2
          exact listIsSub_append_post _ (listIsSub_self _)
        simp [update_list_file, htagin]
      · simp [update_list_file, h1, h2]

/-- C7, witness: inserting `x.txt` into the two-line manifest
`<a>\n</listofcarddatafiles>` and both no-op branches. -/
theorem claim7_idempotent_insert_witness :
    update_list_file ['x'] (['<', 'a', '>', '\n'] ++ (closingTag ++ [])) =
      ['<', 'a', '>', '\n'] ++ (includeTag ['x'] ++ ('\n' :: closingTag ++ [])) ∧
    update_list_file ['x'] ['<', 'a', '>'] = ['<', 'a', '>'] ∧
    update_list_file ['x']
        (update_list_file ['x'] (['<', 'a', '>', '\n'] ++ (closingTag ++ []))) =
      update_list_file ['x'] (['<', 'a', '>', '\n'] ++ (closingTag ++ [])) :=
  ⟨(claim7_idempotent_insert ['x']).2.2.1 ['<', 'a', '>', '\n'] []
      (by decide) (by decide) (by decide),
   (claim7_idempotent_insert ['x']).2.1 ['<', 'a', '>'] (by decide),
   (claim7_idempotent_insert ['x']).2.2.2
     (['<', 'a', '>', '\n'] ++ (closingTag ++ []))⟩

/-! ### C1: `deduplicate_output_file` -/

theorem takeWhile_dropWhile_split (blanks data : List (List Char))
    (hb : ∀ l ∈ blanks, isBlankLine l = true)
    (hd : ∀ l, data.head? = some l → isBlankLine l = false) :
    (blanks ++ data).takeWhile isBlankLine = blanks ∧
    (blanks ++ data).dropWhile isBlankLine = data := by
  induction blanks with
  | nil =>
    cases data with
    | nil => simp
    | cons d ds =>
      have := hd d rfl
      simp [List.takeWhile_cons, List.dropWhile_cons, this]
  | cons x xs ih =>
    have hx : isBlankLine x = true := hb x (List.mem_cons_self _ _)
    have ih' := ih (fun l hl => hb l (List.mem_cons_of_mem _ hl))
    simp [List.takeWhile_cons, List.dropWhile_cons, hx, ih'.1, ih'.2]

theorem keysOf_cons_none {l : List Char} {ls : List (List Char)}
    (h : lineKey l = none) : keysOf (l :: ls) = keysOf ls := by
  simp [keysOf, List.filterMap_cons, h]

theorem keysOf_cons_some {l : List Char} {ls : List (List Char)}
    {k : List Char × List Char} (h : lineKey l = some k) :
    keysOf (l :: ls) = k :: keysOf ls := by
  simp [keysOf, List.filterMap_cons, h]

theorem mem_keysOf_iff {ls : List (List Char)} {k : List Char × List Char} :
    k ∈ keysOf ls ↔ ∃ l ∈ ls, lineKey l = some k := by
  simp [keysOf, List.mem_filterMap]

theorem dedupAux_cons_none {l : List Char} {ls : List (List Char)}
    {seen : List (List Char × List Char)} (h : lineKey l = none) :
    dedupAux (l :: ls) seen = dedupAux ls seen := by
  simp [dedupAux, h]

theorem dedupAux_cons_mem {l : List Char} {ls : List (List Char)}
    {seen : List (List Char × List Char)} {k : List Char × List Char}
    (h : lineKey l = some k) (hm : k ∈ seen) :
    dedupAux (l :: ls) seen = dedupAux ls seen := by
  simp [dedupAux, h, hm]

theorem dedupAux_cons_notmem {l : List Char} {ls : List (List Char)}
    {seen : List (List Char × List Char)} {k : List Char × List Char}
    (h : lineKey l = some k) (hm : k ∉ seen) :
    dedupAux (l :: ls) seen = l :: dedupAux ls (k :: seen) := by
  simp [dedupAux, h, hm]

theorem keepLast_cons_none {l : List Char} {ls : List (List Char)}
    (h : lineKey l = none) : keepLast (l :: ls) = keepLast ls := by
  simp [keepLast, h]

theorem keepLast_cons_mem {l : List Char} {ls : List (List Char)}
    {k : List Char × List Char} (h : lineKey l = some k) (hm : k ∈ keysOf ls) :
    keepLast (l :: ls) = keepLast ls := by
  simp [keepLast, h, hm]

theorem keepLast_cons_notmem {l : List Char} {ls : List (List Char)}
    {k : List Char × List Char} (h : lineKey l = some k) (hm : k ∉ keysOf ls) :
    keepLast (l :: ls) = l :: keepLast ls := by
  simp [keepLast, h, hm]

theorem dedupAux_append_none {x : List Char} (hkx : lineKey x = none) :
    ∀ (xs : List (List Char)) (seen : List (List Char × List Char)),
      dedupAux (xs ++ [x]) seen = dedupAux xs seen := by
  intro xs
  induction xs with
  | nil => intro seen; simp [dedupAux, hkx]
  | cons l ls ih =>
    intro seen
    cases hkl : lineKey l with
    | none => rw [List.cons_append, dedupAux_cons_none hkl, ih seen,
        dedupAux_cons_none hkl]
    | some kl =>
      by_cases hmem : kl ∈ seen
      · rw [List.cons_append, dedupAux_cons_mem hkl hmem, ih seen,
          dedupAux_cons_mem hkl hmem]
      · rw [List.cons_append, dedupAux_cons_notmem hkl hmem, ih (kl :: seen),
          dedupAux_cons_notmem hkl hmem]

theorem dedupAux_append_some {x : List Char} {k : List Char × List Char}
    (hkx : lineKey x = some k) :
    ∀ (xs : List (List Char)) (seen : List (List Char × List Char)),
      dedupAux (xs ++ [x]) seen = dedupAux xs seen ++
        (if k ∈ seen ∨ k ∈ keysOf xs then [] else [x]) := by
  intro xs
  induction xs with
  | nil =>
    intro seen
    by_cases hmem : k ∈ seen
    · simp [dedupAux, hkx, hmem, keysOf]
    · simp [dedupAux, hkx, hmem, keysOf]
  | cons l ls ih =>
    intro seen
    cases hkl : lineKey l with
    | none =>
      rw [List.cons_append, dedupAux_cons_none hkl, ih seen,
        dedupAux_cons_none hkl, keysOf_cons_none hkl]
    | some kl =>
      by_cases hmem : kl ∈ seen
      · have hiff : (k ∈ seen ∨ k ∈ kl :: keysOf ls) ↔
            (k ∈ seen ∨ k ∈ keysOf ls) := by
          simp only [List.mem_cons]
          constructor
          · rintro (h | rfl | h)
            · exact Or.inl h
            · exact Or.inl hmem
            · exact Or.inr h
          · rintro (h | h)
            · exact Or.inl h
            · exact Or.inr (Or.inr h)
        rw [List.cons_append, dedupAux_cons_mem hkl hmem, ih seen,
          dedupAux_cons_mem hkl hmem, keysOf_cons_some hkl,
          if_congr hiff rfl rfl]
      · have hiff : (k ∈ seen ∨ k ∈ kl :: keysOf ls) ↔
            (k ∈ kl :: seen ∨ k ∈ keysOf ls) := by
          simp only [List.mem_cons]
          tauto
        rw [List.cons_append, dedupAux_cons_notmem hkl hmem, ih (kl :: seen),
          dedupAux_cons_notmem hkl hmem, keysOf_cons_some hkl,
          if_congr hiff rfl rfl, List.cons_append]

theorem dedup_rev_eq_keepLast (data : List (List Char)) :
    (dedupAux data.reverse []).reverse = keepLast data := by
  induction data with
  | nil => rfl
  | cons l ls ih =>
    rw [List.reverse_cons]
    cases hkl : lineKey l with
    | none =>
      rw [dedupAux_append_none hkl, ih, keepLast_cons_none hkl]
    | some k =>
      rw [dedupAux_append_some hkl]
      have hmemrev : k ∈ keysOf ls.reverse ↔ k ∈ keysOf ls := by
        simp only [mem_keysOf_iff, List.mem_reverse]
      rw [List.reverse_append]
      by_cases hmem : k ∈ keysOf ls
      · rw [if_pos (Or.inr (hmemrev.mpr hmem))]
        rw [List.reverse_nil, List.nil_append, ih, keepLast_cons_mem hkl hmem]
      · rw [if_neg (by
          rintro (h | h)
          · simp at h
          · exact hmem (hmemrev.mp h))]
        rw [ih, keepLast_cons_notmem hkl hmem]
        rfl

theorem keepLast_sublist (ls : List (List Char)) : List.Sublist (keepLast ls) ls := by
  induction ls with
  | nil => exact List.Sublist.refl _
  | cons l ls ih =>
    cases hkl : lineKey l with
    | none =>
      rw [keepLast_cons_none hkl]
      exact ih.cons l
    | some k =>
      by_cases hmem : k ∈ keysOf ls
      · rw [keepLast_cons_mem hkl hmem]
        exact ih.cons l
      · rw [keepLast_cons_notmem hkl hmem]
        exact ih.cons₂ l

theorem mem_keepLast_key {ls : List (List Char)} {b : List Char}
    (hb : b ∈ keepLast ls) :
    ∃ kb, lineKey b = some kb ∧ kb ∈ keysOf ls := by
  induction ls with
  | nil => simp [keepLast] at hb
  | cons l ls ih =>
    cases hkl : lineKey l with
    | none =>
      rw [keepLast_cons_none hkl] at hb
      obtain ⟨kb, h1, h2⟩ := ih hb
      exact ⟨kb, h1, by rw [keysOf_cons_none hkl]; exact h2⟩
    | some k =>
      by_cases hmem : k ∈ keysOf ls
      · rw [keepLast_cons_mem hkl hmem] at hb
        obtain ⟨kb, h1, h2⟩ := ih hb
        exact ⟨kb, h1, by rw [keysOf_cons_some hkl]; exact List.mem_cons_of_mem _ h2⟩
      · rw [keepLast_cons_notmem hkl hmem] at hb
        rcases List.mem_cons.mp hb with rfl | hb2
        · exact ⟨k, hkl, by rw [keysOf_cons_some hkl]; exact List.mem_cons_self _ _⟩
        · obtain ⟨kb, h1, h2⟩ := ih hb2
          exact ⟨kb, h1, by rw [keysOf_cons_some hkl]; exact List.mem_cons_of_mem _ h2⟩

theorem keepLast_pairwise (ls : List (List Char)) :
    (keepLast ls).Pairwise (fun a b => lineKey a ≠ lineKey b) := by
  induction ls with
  | nil => exact List.Pairwise.nil
  | cons l ls ih =>
    cases hkl : lineKey l with
    | none =>
      rw [keepLast_cons_none hkl]
      exact ih
    | some k =>
      by_cases hmem : k ∈ keysOf ls
      · rw [keepLast_cons_mem hkl hmem]
        exact ih
      · rw [keepLast_cons_notmem hkl hmem]
        refine List.Pairwise.cons ?_ ih
        intro b hb
        obtain ⟨kb, h1, h2⟩ := mem_keepLast_key hb
        rw [hkl, h1]
        intro heq
        exact hmem (by rw [Option.some_inj.mp heq]; exact h2)

theorem keepLast_filter_eq (k : List Char × List Char) (ls : List (List Char)) :
    (keepLast ls).filter (fun l => decide (lineKey l = some k)) =
      ((ls.filter (fun l => decide (lineKey l = some k))).getLast?).toList := by
  induction ls with
  | nil => rfl
  | cons l ls ih =>
    cases hkl : lineKey l with
    | none =>
      have hpl : (fun l => decide (lineKey l = some k)) l = false := by simp [hkl]
      rw [keepLast_cons_none hkl, List.filter_cons_of_neg (by simp [hkl]), ih]
    | some kl =>
      by_cases hmem : kl ∈ keysOf ls
      · rw [keepLast_cons_mem hkl hmem]
        by_cases hkk : kl = k
        · subst hkk
          rw [ih, List.filter_cons_of_pos (by simp [hkl])]
          obtain ⟨b, hbls, hbk⟩ := mem_keysOf_iff.mp hmem
          have hbf : b ∈ ls.filter (fun l => decide (lineKey l = some kl)) :=
            List.mem_filter.mpr ⟨hbls, by simp [hbk]⟩
          cases hfl : ls.filter (fun l => decide (lineKey l = some kl)) with
          | nil => rw [hfl] at hbf; simp at hbf
          | cons y ys => rw [List.getLast?_cons_cons]
        · rw [List.filter_cons_of_neg (by simp [hkl, hkk]), ih]
      · rw [keepLast_cons_notmem hkl hmem]
        by_cases hkk : kl = k
        · subst hkk
          have hfl : ls.filter (fun l => decide (lineKey l = some kl)) = [] := by
            rw [List.filter_eq_nil_iff]
            intro b hbls hpb
            simp only [decide_eq_true_eq] at hpb
            exact hmem (mem_keysOf_iff.mpr ⟨b, hbls, hpb⟩)
          have hflK : (keepLast ls).filter
              (fun l => decide (lineKey l = some kl)) = [] := by
            rw [List.filter_eq_nil_iff]
            intro b hbls hpb
            simp only [decide_eq_true_eq] at hpb
            obtain ⟨kb, h1, h2⟩ := mem_keepLast_key hbls
            rw [h1] at hpb
            exact hmem (by rw [← Option.some_inj.mp hpb]; exact h2)
          rw [List.filter_cons_of_pos (by simp [hkl]), hflK,
            List.filter_cons_of_pos (by simp [hkl]), hfl]
          rfl
        · rw [List.filter_cons_of_neg (by simp [hkl, hkk]),
            List.filter_cons_of_neg (by simp [hkl, hkk]), ih]

/-- C1: on a file made of a header line, leading blank lines, and data
lines (each with at least 3 tab-separated fields), `deduplicate_output_file`
keeps the header and the leading blank lines verbatim and replaces the data
lines by `keepLast data`, which (i) is a sublist of the data (survivors keep
their original relative order), (ii) for each (Name, ImageFile) key consists
of exactly the last-occurring line with that key, and (iii) has pairwise
distinct keys afterwards; every data line carries a key. -/
theorem claim1_dedup (header : List Char) (blanks data : List (List Char))
    (hb : ∀ l ∈ blanks, isBlankLine l = true)
    (hd : ∀ l, data.head? = some l → isBlankLine l = false)
    (h3 : ∀ l ∈ data, 3 ≤ (splitTab l).length) :
    deduplicate_output_file (header :: (blanks ++ data)) =
      header :: (blanks ++ keepLast data) ∧
    List.Sublist (keepLast data) data ∧
    (∀ k : List Char × List Char,
      (keepLast data).filter (fun l => decide (lineKey l = some k)) =
        ((data.filter (fun l => decide (lineKey l = some k))).getLast?).toList) ∧
    (keepLast data).Pairwise (fun a b => lineKey a ≠ lineKey b) ∧
    (∀ l ∈ data, ∃ kk, lineKey l = some kk) := by
  obtain ⟨ht, hdp⟩ := takeWhile_dropWhile_split blanks data hb hd
  refine ⟨?_, keepLast_sublist data, fun k => keepLast_filter_eq k data,
    keepLast_pairwise data, ?_⟩
  · show header :: ((blanks ++ data).takeWhile isBlankLine ++
      (dedupAux ((blanks ++ data).dropWhile isBlankLine).reverse []).reverse) =
      header :: (blanks ++ keepLast data)
    rw [ht, hdp, dedup_rev_eq_keepLast]
  · intro l hl
    exact ⟨((splitTab l).getD 0 [], (splitTab l).getD 2 []), by
      unfold lineKey
      rw [if_pos (h3 l hl)]⟩

/-- C1, witness: a concrete file where the first data line's key repeats
later: the later line wins and order among survivors is preserved. -/
theorem claim1_dedup_witness :
    deduplicate_output_file
        [['H'], [],
         ['n', '\t', 's', '\t', 'f'],
         ['m', '\t', 's', '\t', 'g'],
         ['n', '\t', 's', '\t', 'f', '\t', '2']] =
      ['H'] :: ([[]] ++ keepLast
        [['n', '\t', 's', '\t', 'f'],
         ['m', '\t', 's', '\t', 'g'],
         ['n', '\t', 's', '\t', 'f', '\t', '2']]) ∧
    keepLast
        [['n', '\t', 's', '\t', 'f'],
         ['m', '\t', 's', '\t', 'g'],
         ['n', '\t', 's', '\t', 'f', '\t', '2']] =
      [['m', '\t', 's', '\t', 'g'],
       ['n', '\t', 's', '\t', 'f', '\t', '2']] :=
  ⟨(claim1_dedup ['H'] [[]]
      [['n', '\t', 's', '\t', 'f'],
       ['m', '\t', 's', '\t', 'g'],
       ['n', '\t', 's', '\t', 'f', '\t', '2']]
      (by decide) (by decide) (by decide)).1,
   by decide⟩

/-! ### C6: oracle-text cleanup -/

theorem dropWhile_append_all {p : Char → Bool} {ws : List Char} (t : List Char)
    (h : ∀ c ∈ ws, p c = true) : (ws ++ t).dropWhile p = t.dropWhile p := by
  induction ws with
  | nil => rfl
  | cons x xs ih =>
    rw [List.cons_append, List.dropWhile_cons, if_pos (h x (List.mem_cons_self _ _))]
    exact ih (fun c hc => h c (List.mem_cons_of_mem _ hc))

theorem dropWhile_of_head_false {p : Char → Bool} {t : List Char}
    (h : ∀ x, t.head? = some x → p x = false) : t.dropWhile p = t := by
  cases t with
  | nil => rfl
  | cons x xs =>
    rw [List.dropWhile_cons, if_neg (by simp [h x rfl])]

theorem dropWhile_append_keep {p : Char → Bool} {a : List Char} (t : List Char)
    (hex : ∃ c ∈ a, p c = false) :
    (a ++ t).dropWhile p = a.dropWhile p ++ t ∧ a.dropWhile p ≠ [] := by
  induction a with
  | nil => simp at hex
  | cons x xs ih =>
    by_cases hx : p x = true
    · have hex' : ∃ c ∈ xs, p c = false := by
        obtain ⟨c, hc, hpc⟩ := hex
        rcases List.mem_cons.mp hc with rfl | hc2
        · rw [hx] at hpc; exact absurd hpc (by simp)
        · exact ⟨c, hc2, hpc⟩
      obtain ⟨h1, h2⟩ := ih hex'
      constructor
      · rw [List.cons_append, List.dropWhile_cons, if_pos hx, h1,
          List.dropWhile_cons, if_pos hx]
      · rw [List.dropWhile_cons, if_pos hx]
        exact h2
    · constructor
      · rw [List.cons_append, List.dropWhile_cons, if_neg hx,
          List.dropWhile_cons, if_neg hx]
        rfl
      · rw [List.dropWhile_cons, if_neg hx]
        simp

theorem dropWhile_head_spec {p : Char → Bool} (a : List Char) {y : Char}
    {ys : List Char} (h : a.dropWhile p = y :: ys) : y ∈ a ∧ p y = false := by
  induction a with
  | nil => simp [List.dropWhile] at h
  | cons x xs ih =>
    rw [List.dropWhile_cons] at h
    by_cases hx : p x = true
    · rw [if_pos hx] at h
      obtain ⟨h1, h2⟩ := ih h
      exact ⟨List.mem_cons_of_mem _ h1, h2⟩
    · rw [if_neg hx] at h
      injection h with h1 h2
      subst h1
      exact ⟨List.mem_cons_self _ _, by simpa using hx⟩

theorem matchParen_none_of_head {s : List Char}
    (h : ∀ y ys, s.dropWhile isPySpace = y :: ys → y ≠ '(') :
    matchParen s = none := by
  unfold matchParen
  cases hd : s.dropWhile isPySpace with
  | nil => rfl
  | cons y ys =>
    dsimp only
    rw [if_neg (h y ys hd)]

theorem matchParen_none_of_no_paren {s : List Char} (h : '(' ∉ s) :
    matchParen s = none := by
  apply matchParen_none_of_head
  intro y ys hd
  have hy : y ∈ s := (dropWhile_head_spec s hd).1
  exact fun he => h (he ▸ hy)

theorem matchParen_of_shape {ws1 b ws2 cc : List Char}
    (hw1 : ∀ c ∈ ws1, isPySpace c = true) (hb : ')' ∉ b)
    (hw2 : ∀ c ∈ ws2, isPySpace c = true)
    (hcc : ∀ x, cc.head? = some x → isPySpace x = false) :
    matchParen (ws1 ++ '(' :: (b ++ ')' :: (ws2 ++ cc))) = some cc := by
  unfold matchParen
  have hd : (ws1 ++ '(' :: (b ++ ')' :: (ws2 ++ cc))).dropWhile isPySpace
      = '(' :: (b ++ ')' :: (ws2 ++ cc)) := by
    rw [dropWhile_append_all _ hw1, List.dropWhile_cons,
      if_neg (by decide)]
  rw [hd]
  dsimp only
  rw [if_pos rfl, splitAtCh_of_append hb]
  dsimp only
  rw [dropWhile_append_all _ hw2, dropWhile_of_head_false hcc]

theorem matchParen_none_of_solid {a : List Char} (t : List Char)
    (hnp : '(' ∉ a) (hex : ∃ c ∈ a, isPySpace c = false) :
    matchParen (a ++ t) = none := by
  obtain ⟨hsplit, hne⟩ := dropWhile_append_keep t hex
  apply matchParen_none_of_head
  intro y ys hd
  rw [hsplit] at hd
  cases hda : a.dropWhile isPySpace with
  | nil => exact absurd hda hne
  | cons z zs =>
    rw [hda, List.cons_append] at hd
    injection hd with h1 h2
    subst h1
    obtain ⟨hz, -⟩ := dropWhile_head_spec a hda
    exact fun he => hnp (he ▸ hz)

theorem subParens_no_paren {s : List Char} (h : '(' ∉ s) : subParens s = s := by
  induction s with
  | nil => exact subParens_nil
  | cons c r ih =>
    rw [subParens_matchNone (matchParen_none_of_no_paren h)]
    exact congrArg (c :: ·) (ih (fun hm => h (List.mem_cons_of_mem _ hm)))

theorem subParens_replace {a ws1 b ws2 cc : List Char}
    (ha : '(' ∉ a)
    (hlast : ∀ x, a.getLast? = some x → isPySpace x = false)
    (hw1 : ∀ c ∈ ws1, isPySpace c = true) (hb : ')' ∉ b)
    (hw2 : ∀ c ∈ ws2, isPySpace c = true)
    (hcc : ∀ x, cc.head? = some x → isPySpace x = false) :
    subParens (a ++ (ws1 ++ '(' :: (b ++ ')' :: (ws2 ++ cc)))) =
      a ++ ' ' :: subParens cc := by
  induction a with
  | nil =>
    rw [List.nil_append, List.nil_append]
    have hm := matchParen_of_shape hw1 hb hw2 hcc
    cases hws1c : ws1 ++ '(' :: (b ++ ')' :: (ws2 ++ cc)) with
    | nil =>
      exfalso
      cases ws1 <;> simp at hws1c
    | cons c rest =>
      rw [hws1c] at hm
      rw [subParens_matchSome hm]
  | cons x a' ih =>
    have hglx : ∃ z, (x :: a').getLast? = some z ∧ z ∈ x :: a' := by
      refine ⟨(x :: a').getLast (by simp), ?_, List.getLast_mem _⟩
      exact List.getLast?_eq_getLast _ (by simp)
    obtain ⟨z, hz, hzmem⟩ := hglx
    have hm : matchParen ((x :: a') ++
        (ws1 ++ '(' :: (b ++ ')' :: (ws2 ++ cc)))) = none := by
      exact matchParen_none_of_solid _ ha ⟨z, hzmem, hlast z hz⟩
    rw [List.cons_append] at hm ⊢
    rw [subParens_matchNone hm]
    have ha' : '(' ∉ a' := fun hm2 => ha (List.mem_cons_of_mem _ hm2)
    have hlast' : ∀ y, a'.getLast? = some y → isPySpace y = false := by
      intro y hy
      apply hlast y
      cases a' with
      | nil => simp at hy
      | cons w ws => rw [List.getLast?_cons_cons]; exact hy
    rw [ih ha' hlast']
    rfl

theorem replaceNewlines_no_nl {u : List Char} (h : '\n' ∉ u) :
    replaceNewlines u = u := by
  induction u with
  | nil => rfl
  | cons c r ih =>
    have hc : ¬ c = '\n' := fun hh => h (by simp [hh])
    rw [replaceNewlines, if_neg hc, ih (fun hm => h (List.mem_cons_of_mem _ hm))]

theorem replaceNewlines_split {u v : List Char} (h : '\n' ∉ u) :
    replaceNewlines (u ++ '\n' :: v) =
      u ++ ' ' :: '|' :: ' ' :: replaceNewlines v := by
  induction u with
  | nil => rw [List.nil_append, replaceNewlines, if_pos rfl, List.nil_append]
  | cons c r ih =>
    have hc : ¬ c = '\n' := fun hh => h (by simp [hh])
    rw [List.cons_append, replaceNewlines, if_neg hc,
      ih (fun hm => h (List.mem_cons_of_mem _ hm)), List.cons_append]

/-- C6, counterexample: the claim says parenthesized passages and their
surrounding whitespace are *removed* with other text unchanged, which on
`"a(x)b"` would give `"ab"`; the code substitutes a single space for each
match, giving `"a b"`. -/
theorem claim6_counterexample :
    clean_oracle ['a', '(', 'x', ')', 'b'] = ['a', ' ', 'b'] ∧
    (['a', ' ', 'b'] : List Char) ≠ ['a', 'b'] := by
  constructor
  · show replaceNewlines (stripWs (subParens ['a', '(', 'x', ')', 'b'])) = _
    rw [subParens_matchNone (by decide),
      subParens_matchSome (show matchParen ['(', 'x', ')', 'b'] = some ['b'] by decide),
      subParens_matchNone (by decide), subParens_nil]
    decide
  · decide

/-- C6, amended: the cleanup replaces each parenthesized passage, together
with the whitespace immediately around it, by a *single space* (rather than
removing it outright), then strips outer whitespace, then replaces each
remaining newline by `" | "`; text containing no parenthesis is left
unchanged by the substitution step, and text containing no newline is left
unchanged by the replacement step. -/
theorem claim6_amended :
    (∀ a ws1 b ws2 cc : List Char, '(' ∉ a →
      (∀ x, a.getLast? = some x → isPySpace x = false) →
      (∀ c ∈ ws1, isPySpace c = true) → ')' ∉ b →
      (∀ c ∈ ws2, isPySpace c = true) →
      (∀ x, cc.head? = some x → isPySpace x = false) →
      subParens (a ++ (ws1 ++ '(' :: (b ++ ')' :: (ws2 ++ cc)))) =
        a ++ ' ' :: subParens cc) ∧
    (∀ s : List Char, '(' ∉ s → subParens s = s) ∧
    (∀ u v : List Char, '\n' ∉ u →
      replaceNewlines (u ++ '\n' :: v) =
        u ++ ' ' :: '|' :: ' ' :: replaceNewlines v) ∧
    (∀ u : List Char, '\n' ∉ u → replaceNewlines u = u) ∧
    (∀ t : List Char, clean_oracle t = replaceNewlines (stripWs (subParens t))) := by
  exact ⟨fun a ws1 b ws2 cc h1 h2 h3 h4 h5 h6 =>
      subParens_replace h1 h2 h3 h4 h5 h6,
    fun s h => subParens_no_paren h,
    fun u v h => replaceNewlines_split h,
    fun u h => replaceNewlines_no_nl h,
    fun t => rfl⟩

/-- C6, amended, witness: `"a (x)b"` has its parenthesized passage and the
space before it replaced by one space. -/
theorem claim6_amended_witness :
    subParens (['a'] ++ ([' '] ++ '(' :: (['x'] ++ ')' :: ([] ++ ['b'])))) =
      ['a'] ++ ' ' :: subParens ['b'] ∧
    subParens ['b'] = ['b'] :=
  ⟨claim6_amended.1 ['a'] [' '] ['x'] [] ['b']
      (by decide)
      (by
        intro x hx
        have : x = 'a' := by simpa using hx.symm
        subst this
        decide)
      (by decide) (by decide) (by decide)
      (by
        intro x hx
        have : x = 'b' := by simpa using hx.symm
        subst this
        decide),
    claim6_amended.2.1 ['b'] (by decide)⟩

/-! ### C8: idempotent image re-download -/

theorem dfcLoop_all_exist (fetch decode : List Char → Option (List Char))
    (dir collector : List Char) :
    ∀ (faces : List Face) (i : Nat) (fs : List (List Char × List Char)),
      (∀ j, j < faces.length → pathExists fs
        (dir ++ '/' :: collector ++ [Char.ofNat (97 + (i + j))] ++
          ['.', 'j', 'p', 'g']) = true) →
      dfcLoop fetch decode dir collector faces i fs =
        (faces.all (fun f => (faceUrl f).isSome), fs, []) := by
  intro faces
  induction faces with
  | nil => intro i fs _; rfl
  | cons f rest ih =>
    intro i fs h
    have hrest : ∀ j, j < rest.length → pathExists fs
        (dir ++ '/' :: collector ++ [Char.ofNat (97 + ((i + 1) + j))] ++
          ['.', 'j', 'p', 'g']) = true := by
      intro j hj
      have := h (j + 1) (by simpa using Nat.succ_lt_succ hj)
      rw [show i + (j + 1) = (i + 1) + j from by omega] at this
      exact this
    cases hurl : faceUrl f with
    | none =>
      rw [dfcLoop, hurl]
      dsimp only
      rw [ih (i + 1) fs hrest]
      simp [hurl]
    | some url =>
      have hp := h 0 (by simp)
      rw [show i + 0 = i from by omega] at hp
      rw [dfcLoop, hurl]
      dsimp only
      rw [if_pos hp, ih (i + 1) fs hrest]
      simp [hurl]

def faceA : Face :=
  { name := [], mana_cost := [], colors := [], type_line := [], power := [],
    toughness := [], loyalty := [], oracle_text := [],
    image_uris := some { border_crop := some ['u'], large := none,
                         normal := none, small := none } }

def faceB : Face :=
  { name := [], mana_cost := [], colors := [], type_line := [], power := [],
    toughness := [], loyalty := [], oracle_text := [], image_uris := none }

def cX : Card :=
  { name := [], collector_number := ['1'], mana_cost := [], colors := [],
    cmc := 0, type_line := [], power := [], toughness := [], loyalty := [],
    rarity := [], oracle_text := [], image_uris := none,
    card_faces := [faceA, faceB] }

def fsX : List (List Char × List Char) :=
  [(['b', '/', 's', '/', 's', '/', '1', 'a', '.', 'j', 'p', 'g'], []),
   (['b', '/', 's', '/', 's', '/', '1', 'b', '.', 'j', 'p', 'g'], [])]

def cS : Card :=
  { name := [], collector_number := ['2'], mana_cost := [], colors := [],
    cmc := 0, type_line := [], power := [], toughness := [], loyalty := [],
    rarity := [], oracle_text := [],
    image_uris := some { border_crop := some ['u'], large := none,
                         normal := none, small := none },
    card_faces := [] }

def fsS : List (List Char × List Char) :=
  [(['b', '/', 's', '/', 's', '/', '2', '.', 'j', 'p', 'g'], [])]

/-- C8, counterexample: a double-faced card whose second face has no image
URL, with both target files already on disk.  `download_card_image` makes
no request and writes nothing, but returns `False` *before* the existence
check, and since the card still resolves a top-level image URL,
`download_set_images` counts it as failed — the claim says such a card is
counted successful/skipped. -/
theorem claim8_counterexample :
    (∀ p ∈ targetPaths cX ['s'] ['b'], pathExists fsX p = true) ∧
    download_card_image (fun _ => none) (fun _ => none) cX ['s'] ['b'] fsX =
      some (false, fsX, []) ∧
    classify (fun _ => none) (fun _ => none) cX ['s'] ['b'] fsX =
      some DLCat.failed := by
  decide

/-- C8, amended: when every target image path of a card already exists,
`download_card_image` performs no HTTP request and leaves the filesystem
unchanged; the card is counted successful when every face (resp. the card)
resolves an image URL, and otherwise skipped or — for a double-faced card
with an unresolvable face but a resolvable card-level URL — failed. -/
theorem claim8_amended (fetch decode : List Char → Option (List Char))
    (c : Card) (set_code base : List Char) (fs : List (List Char × List Char))
    (h : ∀ p ∈ targetPaths c set_code base, pathExists fs p = true) :
    download_card_image fetch decode c set_code base fs =
      some (allResolvable c, fs, []) ∧
    classify fetch decode c set_code base fs =
      some (if allResolvable c = true then DLCat.successful
            else if get_image_url c = none then DLCat.skipped
            else DLCat.failed) := by
  by_cases hdf : 2 ≤ c.card_faces.length
  · have hpaths : ∀ j, j < c.card_faces.length → pathExists fs
        (imageDir c set_code base ++ '/' :: c.collector_number ++
          [Char.ofNat (97 + (0 + j))] ++ ['.', 'j', 'p', 'g']) = true := by
      intro j hj
      have hmem : (imageDir c set_code base ++ '/' :: c.collector_number ++
          [Char.ofNat (97 + j)] ++ ['.', 'j', 'p', 'g']) ∈
          targetPaths c set_code base := by
        unfold targetPaths
        rw [if_pos hdf]
        exact List.mem_map.mpr ⟨j, List.mem_range.mpr hj, rfl⟩
      have := h _ hmem
      rw [show 0 + j = j from by omega]
      exact this
    have hloop := dfcLoop_all_exist fetch decode (imageDir c set_code base)
      c.collector_number c.card_faces 0 fs hpaths
    have hdl : download_card_image fetch decode c set_code base fs =
        some (c.card_faces.all (fun f => (faceUrl f).isSome), fs, []) := by
      unfold download_card_image
      rw [if_pos hdf, hloop]
    have hres : allResolvable c = c.card_faces.all (fun f => (faceUrl f).isSome) := by
      unfold allResolvable
      rw [if_pos hdf]
    refine ⟨by rw [hdl, hres], ?_⟩
    unfold classify
    rw [hdl]
    cases hall : c.card_faces.all (fun f => (faceUrl f).isSome) with
    | true => rw [hres, hall]; rfl
    | false =>
      rw [hres, hall]
      dsimp only
      by_cases hurl : get_image_url c = none
      · rw [if_pos hurl, if_pos hurl]
        rfl
      · rw [if_neg hurl, if_neg hurl]
        rfl
  · have hres : allResolvable c = (get_image_url c).isSome := by
      unfold allResolvable
      rw [if_neg hdf]
    cases hurl : get_image_url c with
    | none =>
      have hdl : download_card_image fetch decode c set_code base fs =
          some (false, fs, []) := by
        unfold download_card_image
        rw [if_neg hdf, hurl]
      refine ⟨by rw [hdl, hres, hurl]; rfl, ?_⟩
      unfold classify
      rw [hdl, hres, hurl]
      rfl
    | some url =>
      have hmem : (imageDir c set_code base ++ '/' :: c.collector_number ++
          ['.', 'j', 'p', 'g']) ∈ targetPaths c set_code base := by
        unfold targetPaths
        rw [if_neg hdf]
        exact List.mem_singleton.mpr rfl
      have hp := h _ hmem
      have hdl : download_card_image fetch decode c set_code base fs =
          some (true, fs, []) := by
        unfold download_card_image
        rw [if_neg hdf, hurl]
        dsimp only
        rw [if_pos hp]
      refine ⟨by rw [hdl, hres, hurl]; rfl, ?_⟩
      unfold classify
      rw [hdl, hres, hurl]
      rfl

/-- C8, amended, witness: a single-faced card whose image file already
exists is re-run with zero requests, an unchanged filesystem, and a
successful count. -/
theorem claim8_amended_witness :
    (∀ p ∈ targetPaths cS ['s'] ['b'], pathExists fsS p = true) ∧
    download_card_image (fun _ => none) (fun _ => none) cS ['s'] ['b'] fsS =
      some (allResolvable cS, fsS, []) ∧
    classify (fun _ => none) (fun _ => none) cS ['s'] ['b'] fsS =
      some (if allResolvable cS = true then DLCat.successful
            else if get_image_url cS = none then DLCat.skipped
            else DLCat.failed) :=
  ⟨by decide,
    (claim8_amended (fun _ => none) (fun _ => none) cS ['s'] ['b'] fsS
      (by decide)).1,
    (claim8_amended (fun _ => none) (fun _ => none) cS ['s'] ['b'] fsS
      (by decide)).2⟩

end MagicPlugin
